/-
Verification of the endcord rendering-engine specification against a
shallow embedding of the Cython sources (`endcord_cython/*.pyx`).

Conventions of the embedding:
* Python/C strings become `List Char`; C `int` values that may go negative
  (scores, widths, match positions) become `Int`; non-negative indices
  become `Nat`.
* Each Cython function is translated clause by clause; loops become
  structural recursion (or fuel-bounded recursion for `while` loops whose
  bound is evident), early `return`/`break`/`continue` become the
  corresponding branches.
* Definitions that follow the wording of the design document rather than
  the code are explicitly marked as spec-side definitions in their doc
  comments; they exist only to be compared with the code-side definitions.
-/
import Mathlib

set_option linter.unusedVariables false

namespace Endcord

/-! ## search.pyx -/

namespace Search

/-- Lowercasing used by `fuzzy_match_score_single` (`str.lower()`); adequate
for the ASCII inputs the claims exercise. -/
def lowerStr (s : List Char) : List Char := s.map Char.toLower

/-- The `while qpos < qlen and cpos < clen` loop of
`fuzzy_match_score_single` (search.pyx): walks the candidate, consuming
query characters on a (case-folded) match; a match at `cpos` scores 10 when
`cpos == last_match_pos + 1`, else 1.  Returns the unconsumed query, the
final `last_match_pos` and the accumulated score. -/
def fuzzyLoop : List Char → List Char → Int → Int → Int → List Char × Int × Int
  | [], _, _, lastm, score => ([], lastm, score)
  | qh :: qt, [], _, lastm, score => (qh :: qt, lastm, score)
  | qh :: qt, ch :: ct, cpos, lastm, score =>
    if qh = ch then
      fuzzyLoop qt ct (cpos + 1) cpos (score + (if cpos = lastm + 1 then 10 else 1))
    else
      fuzzyLoop (qh :: qt) ct (cpos + 1) lastm score

/-- Final scoring step shared by the code-side and spec-side variants:
a fully consumed query earns `score + max 0 (10 - last_match_pos)`,
otherwise the result is 0. -/
def fuzzyFinish (r : List Char × Int × Int) : Int :=
  if r.1 = [] then r.2.2 + max 0 (10 - r.2.1) else 0

/-- `fuzzy_match_score_single` (search.pyx): `last_match_pos` starts at -1,
so a match at candidate index 0 satisfies `cpos == last_match_pos + 1`. -/
def fuzzy_match_score_single (query candidate : List Char) : Int :=
  fuzzyFinish (fuzzyLoop (lowerStr query) (lowerStr candidate) 0 (-1) 0)

/-- Spec-side definition, written to the claim's words: the very first
matched character of a word is always scored as a gap match (1 point),
never as consecutive, even when it matches at candidate index 0.  This is
obtained by starting `last_match_pos` at -2, which makes
`cpos == last_match_pos + 1` unsatisfiable for the first match while
leaving every later comparison unchanged (after the first match both
variants carry the same `last_match_pos`). -/
def fuzzy_single_claim (query candidate : List Char) : Int :=
  fuzzyFinish (fuzzyLoop (lowerStr query) (lowerStr candidate) 0 (-2) 0)

/-- Whitespace recognised by Python's argument-less `str.split()`
(ASCII fragment, which covers the claims). -/
def isPySpace (c : Char) : Bool :=
  c == ' ' || c == '\t' || c == '\n' || c == '\r' || c == '\x0b' || c == '\x0c'

/-- Helper for `splitWs`: accumulates the current (reversed) word. -/
def splitWsAux : List Char → List Char → List (List Char)
  | [], acc => if acc = [] then [] else [acc.reverse]
  | c :: rest, acc =>
    if isPySpace c then
      if acc = [] then splitWsAux rest []
      else acc.reverse :: splitWsAux rest []
    else
      splitWsAux rest (c :: acc)

/-- Python `str.split()` with no argument: splits on whitespace runs and
never produces empty words. -/
def splitWs (s : List Char) : List (List Char) := splitWsAux s []

/-- The word loop of `fuzzy_match_score` (search.pyx): any word scoring 0
short-circuits the whole query to 0, otherwise scores add up. -/
def fuzzyWords (candidate : List Char) : List (List Char) → Int → Int
  | [], total => total
  | w :: ws, total =>
    let s := fuzzy_match_score_single w candidate
    if s = 0 then 0 else fuzzyWords candidate ws (total + s)

/-- `fuzzy_match_score` (search.pyx). -/
def fuzzy_match_score (query candidate : List Char) : Int :=
  fuzzyWords candidate (splitWs query) 0

end Search

/-! ## color.pyx -/

namespace Color

/-- Squared Euclidean RGB distance computed by `closest_color`
(color.pyx): `dr*dr + dg*dg + db*db`.  Palette entries and the probe are
`(r, g, b)` triples of naturals; the arithmetic is done in `Int` exactly as
the C `int32_t` arithmetic does for in-range (0–255) components. -/
def dist2 (rgb c : Nat × Nat × Nat) : Int :=
  let dr : Int := (rgb.1 : Int) - (c.1 : Int)
  let dg : Int := (rgb.2.1 : Int) - (c.2.1 : Int)
  let db : Int := (rgb.2.2 : Int) - (c.2.2 : Int)
  dr * dr + dg * dg + db * db

/-- The scan loop of `closest_color` (color.pyx): carries the running index
`i`, the best index and the best distance; updates only on a strictly
smaller distance. -/
def closestGo (rgb : Nat × Nat × Nat) :
    List (Nat × Nat × Nat) → Nat → Nat → Int → Nat × Int
  | [], _, bi, bd => (bi, bd)
  | c :: rest, i, bi, bd =>
    let d := dist2 rgb c
    if d < bd then closestGo rgb rest (i + 1) i d
    else closestGo rgb rest (i + 1) bi bd

/-- `closest_color` (color.pyx): linear nearest-palette scan starting from
`best_dist = 2147483647`, `best_idx = 0`; returns the best index and the
palette entry at it. -/
def closest_color (colors : List (Nat × Nat × Nat)) (rgb : Nat × Nat × Nat) :
    Nat × (Nat × Nat × Nat) :=
  let r := closestGo rgb colors 0 0 2147483647
  (r.1, colors.getD r.1 (0, 0, 0))

/-- The `while low <= high` loop of `binary_search` (color.pyx), with fuel:
the interval shrinks strictly every iteration, so `ranges.length + 1` fuel
is never exhausted.  Returns 1 when the codepoint lies in some range. -/
def bsearchGo (cp : Nat) (ranges : List (Nat × Nat)) :
    Nat → Int → Int → Int
  | 0, _, _ => 0
  | fuel + 1, low, high =>
    if low ≤ high then
      let mid := (low + high) / 2
      let r := ranges.getD mid.toNat (0, 0)
      if cp > r.2 then bsearchGo cp ranges fuel (mid + 1) high
      else if cp < r.1 then bsearchGo cp ranges fuel low (mid - 1)
      else 1
    else 0

/-- `binary_search` (color.pyx): 1 when `codepoint` lies in one of the
sorted inclusive `ranges`, else 0, with the fast reject against the overall
bounds first.  (CPython would raise on an empty tuple; the empty case is
mapped to 0, and no claim depends on it.) -/
def binary_search (cp : Nat) (ranges : List (Nat × Nat)) : Int :=
  match ranges with
  | [] => 0
  | _ :: _ =>
    if cp < (ranges.headD (0, 0)).1 ∨ cp > (ranges.getD (ranges.length - 1) (0, 0)).2 then 0
    else bsearchGo cp ranges (ranges.length + 1) 0 ((ranges.length : Int) - 1)

/-- Per-character display width as computed in `limit_width_wch` and
`len_wch` (color.pyx): printable ASCII is width 1, everything else is
`1 + binary_search(...)`. -/
def char_width_wch (ranges : List (Nat × Nat)) (ch : Char) : Int :=
  let cp := ch.toNat
  if 32 ≤ cp ∧ cp < 0x7f then 1 else 1 + binary_search cp ranges

/-- `len_wch` (color.pyx): total accumulated display width. -/
def len_wch (text : List Char) (ranges : List (Nat × Nat)) : Int :=
  text.foldl (fun t ch => t + char_width_wch ranges ch) 0

/-- The scan loop of `limit_width_wch` (color.pyx): stops (returning the
consumed characters and the accumulated width) as soon as the next
character would push the total over `maxW`. -/
def limitGo (ranges : List (Nat × Nat)) (maxW : Int) :
    List Char → Int → List Char × Int
  | [], total => ([], total)
  | ch :: rest, total =>
    let w := char_width_wch ranges ch
    if maxW < total + w then ([], total)
    else
      let r := limitGo ranges maxW rest (total + w)
      (ch :: r.1, r.2)

/-- `limit_width_wch` (color.pyx). -/
def limit_width_wch (text : List Char) (maxW : Int) (ranges : List (Nat × Nat)) :
    List Char × Int :=
  limitGo ranges maxW text 0

/-- Spec-side definition, written to the claim's words: the lowest index at
which `rgb` occurs in the palette (unspecified — 0 — when it does not
occur). -/
def lowestIdx (colors : List (Nat × Nat × Nat)) (rgb : Nat × Nat × Nat) : Nat :=
  match colors with
  | [] => 0
  | c :: rest => if c = rgb then 0 else lowestIdx rest rgb + 1

/-- Spec-side definition, written to the claim's words: the length of the
longest prefix of `text` whose accumulated display width does not exceed
`maxW` (0 when even the empty prefix is the only candidate). -/
def spec_longest_fit (text : List Char) (maxW : Int) (ranges : List (Nat × Nat)) : Nat :=
  Nat.findGreatest (fun k => len_wch (text.take k) ranges ≤ maxW) text.length

end Color

/-! ## media.pyx -/

namespace Media

/-- The glyph-ramp indexing expression of `img_to_curses` (media.pyx):
`ascii_palette[(gray_val * ascii_palette_len) // 255]`. -/
def img_glyph_index (gray_val ramp_len : Nat) : Nat :=
  gray_val * ramp_len / 255

/-- Spec-side definition, written to the claim's words: glyph index
`luminance * ramp_length // 256`. -/
def spec_glyph_index (gray_val ramp_len : Nat) : Nat :=
  gray_val * ramp_len / 256

end Media

/-! ## pgcurses.pyx -/

namespace Pg

/-- One buffer cell: `(glyph, packed attribute)` exactly as the tuples
stored by `insstr` (pgcurses.pyx). -/
abbrev Cell := Char × Nat

def A_STANDOUT : Nat := 0x00010000
def A_UNDERLINE : Nat := 0x00020000
def A_BOLD : Nat := 0x00200000
def A_ITALIC : Nat := 0x80000000

/-- `is_emoji` (pgcurses.pyx). -/
def is_emoji (ch : Char) : Bool :=
  let c := ch.toNat
  (decide (0x1F300 ≤ c) && decide (c ≤ 0x1F9FF)) ||
  (decide (0x2600 ≤ c) && decide (c ≤ 0x27BF)) ||
  (decide (0x2300 ≤ c) && decide (c ≤ 0x23FF)) ||
  (decide (0x2B00 ≤ c) && decide (c ≤ 0x2BFF))

/-- The `row_buffer[x + j] = cells[j]` loops of `insstr` (pgcurses.pyx):
store `cells` into consecutive positions of `row` starting at `x`
(`List.set` drops out-of-range stores, which `insstr` makes unreachable by
clipping to `ncols`). -/
def setCells : List Cell → Nat → List Cell → List Cell
  | row, _, [] => row
  | row, x, c :: rest => setCells (row.set x c) (x + 1) rest

/-- `text.split("\n")` of Python: keeps empty segments, never returns an
empty list. -/
def splitNl : List Char → List (List Char)
  | [] => [[]]
  | c :: rest =>
    match splitNl rest with
    | [] => [[]]
    | h :: t => if c = '\n' then [] :: h :: t else (c :: h) :: t

/-- The per-line loop of `insstr` (pgcurses.pyx): `i` counts the lines
already processed (`row = y + i`); a row at or beyond `nlines` breaks the
loop, a start column at or beyond `ncols` skips the line (`line_len <= 0`),
otherwise the clipped line is stored, all but the last line are padded with
spaces to the row edge, and the row is marked dirty. -/
def insstrGo (nlines ncols y x attr : Nat) :
    List (List Char) → Nat → List (List Cell) → List Nat →
    List (List Cell) × List Nat
  | [], _, buf, dirty => (buf, dirty)
  | line :: rest, i, buf, dirty =>
    let row := y + i
    if nlines ≤ row then (buf, dirty)
    else if ncols ≤ x then insstrGo nlines ncols y x attr rest (i + 1) buf dirty
    else
      let lineLen := ncols - x
      let minLen := min lineLen line.length
      let rowBuf := buf.getD row []
      let rowBuf1 := setCells rowBuf x ((line.take minLen).map (fun ch => (ch, attr)))
      let rowBuf2 :=
        if rest ≠ [] ∧ minLen < lineLen then
          setCells rowBuf1 (x + minLen) (List.replicate (lineLen - minLen) (' ', attr))
        else rowBuf1
      insstrGo nlines ncols y x attr rest (i + 1) (buf.set row rowBuf2) (row :: dirty)

/-- `insstr` (pgcurses.pyx): split on newlines, then run the per-line loop.
Returns the updated buffer and dirty set (as a list with membership as the
set relation). -/
def insstr (nlines ncols y x : Nat) (text : List Char) (attr : Nat)
    (buf : List (List Cell)) (dirty : List Nat) :
    List (List Cell) × List Nat :=
  insstrGo nlines ncols y x attr (splitNl text) 0 buf dirty

/-- Cell-buffer state for the dirty-tracking claims: the live buffer, the
dirty set and a ghost copy of each row's contents at the last completed
render pass (`painted`).  `ncols` is the fixed row width handed to every
`insstr` call; `nlines` is the buffer length. -/
structure PgState where
  ncols : Nat
  buffer : List (List Cell)
  painted : List (List Cell)
  dirty : List Nat

/-- One operation on the cell buffer: an `insstr` write or a `render`
pass. -/
inductive POp where
  | write (y x : Nat) (text : List Char) (attr : Nat)
  | render
  deriving DecidableEq

/-- Apply one operation.  A `render` pass paints every dirty row (so its
ghost `painted` copy catches up with the buffer) and clears the dirty set,
exactly as `render` (pgcurses.pyx) repaints each row in `dirty_lines` from
the buffer and ends with `dirty_lines.clear()`. -/
def applyOp (s : PgState) : POp → PgState
  | .write y x text attr =>
    let r := insstr s.buffer.length s.ncols y x text attr s.buffer s.dirty
    { s with buffer := r.1, dirty := r.2 }
  | .render =>
    { s with
      dirty := [],
      painted :=
        (List.range s.painted.length).map
          (fun r => if r ∈ s.dirty then s.buffer.getD r [] else s.painted.getD r []) }

/-- Run a sequence of operations. -/
def runOps (s : PgState) (ops : List POp) : PgState := ops.foldl applyOp s

/-- The claimed dirty-set invariant, as stated: a row index is dirty iff
the row differs from its contents at the last completed render pass. -/
def dirtyIffDiff (s : PgState) : Prop :=
  ∀ r, r < s.buffer.length →
    (r ∈ s.dirty ↔ s.buffer.getD r [] ≠ s.painted.getD r [])

/-- The amended (one-directional) dirty-set invariant: every row that
differs from its last-rendered contents is dirty. -/
def dirtySupDiff (s : PgState) : Prop :=
  ∀ r, s.buffer.getD r [] ≠ s.painted.getD r [] → r ∈ s.dirty

/-- Shape well-formedness: the ghost `painted` grid has one entry per
buffer row. -/
def pgWF (s : PgState) : Prop := s.buffer.length = s.painted.length

/-- Which pre-loaded font resource a run is drawn with. -/
inductive FontKind where
  | regular
  | bold
  | italic
  | boldItalic
  deriving DecidableEq

/-- The font-selection branch of `render` (pgcurses.pyx), kept literally:
in the `elif flags & A_ITALIC` arm the inner test re-checks `A_ITALIC`
(not `A_BOLD`), so its `else` arm — the only mention of the italic font —
is unreachable. -/
def fontFor (flags : Nat) : FontKind :=
  if flags &&& A_BOLD ≠ 0 then
    if flags &&& A_ITALIC ≠ 0 then FontKind.boldItalic else FontKind.bold
  else if flags &&& A_ITALIC ≠ 0 then
    if flags &&& A_ITALIC ≠ 0 then FontKind.boldItalic else FontKind.italic
  else FontKind.regular

/-- One draw operation issued by `render` (pgcurses.pyx) for a dirty row:
a background fill, an emoji blit, or a batched text run. -/
inductive DrawOp where
  | fill (bg : Nat) (x y w h : Int)
  | blit (ch : Char) (x y : Int)
  | textRun (text : List Char) (fg : Nat) (font : FontKind) (underl : Bool) (x y : Int)
  deriving DecidableEq

/-- The `collect characters with same attributes` inner loop of `render`
(pgcurses.pyx): gathers consecutive cells with attribute `attr`, stopping
at `ncols`, at an attribute change or at an emoji; returns the collected
glyphs and the final scan index.  Fuel-bounded (`ncols` always
suffices). -/
def collectRun (row : List Cell) (ncols attr : Nat) : Nat → Nat → List Char × Nat
  | 0, i => ([], i)
  | fuel + 1, i =>
    if i < ncols then
      let c := row.getD i (' ', 0)
      if c.2 != attr || is_emoji c.1 then ([], i)
      else
        let r := collectRun row ncols attr fuel (i + 1)
        (c.1 :: r.1, r.2)
    else ([], i)

/-- The `while i < ncols` scan of `render` (pgcurses.pyx) over one dirty
row `y`, emitting draw operations.  `colorMap` abstracts the
`color_map[attr & 0xFFFF]` table as a function to `(fg, bg)`.  An emoji
cell fills two visual columns, blits the (scaled) emoji and advances the
buffer index by 2; any other cell starts a same-attribute run drawn as one
fill plus one text render.  Fuel-bounded: every iteration advances `i` by
at least one, so `ncols` fuel suffices. -/
def renderScan (row : List Cell) (ncols : Nat) (y cw chh pxx pxy : Int)
    (colorMap : Nat → Nat × Nat) : Nat → Nat → Nat → List DrawOp
  | 0, _, _ => []
  | fuel + 1, i, drawX =>
    if i < ncols then
      let c := row.getD i (' ', 0)
      let attr := c.2
      let flags := attr &&& 0xFFFF0000
      if is_emoji c.1 then
        let pxX : Int := (drawX : Int) * cw
        let pxY : Int := y * chh
        let p := colorMap (attr &&& 0xFFFF)
        let fg := if flags &&& A_STANDOUT ≠ 0 then p.2 else p.1
        let bg := if flags &&& A_STANDOUT ≠ 0 then p.1 else p.2
        DrawOp.fill bg (pxX + pxx) (pxY + pxy) (2 * cw) chh ::
        DrawOp.blit c.1 (pxX + Int.tdiv (2 * cw - chh) 2 + pxx) (pxY + pxy) ::
        renderScan row ncols y cw chh pxx pxy colorMap fuel (i + 2) (drawX + 2)
      else
        let r := collectRun row ncols attr ncols i
        if r.1 = [] then
          renderScan row ncols y cw chh pxx pxy colorMap fuel (i + 1) (drawX + 1)
        else
          let p := colorMap (attr &&& 0xFFFF)
          let fg := if flags &&& A_STANDOUT ≠ 0 then p.2 else p.1
          let bg := if flags &&& A_STANDOUT ≠ 0 then p.1 else p.2
          let pxX : Int := (drawX : Int) * cw
          let pxY : Int := y * chh
          DrawOp.fill bg (pxX + pxx) (pxY + pxy) ((r.1.length : Int) * cw) chh ::
          DrawOp.textRun r.1 fg (fontFor flags) (flags &&& A_UNDERLINE ≠ 0) (pxX + pxx) (pxY + pxy) ::
          renderScan row ncols y cw chh pxx pxy colorMap fuel r.2 (drawX + r.1.length)
    else []

/-- All draw operations `render` (pgcurses.pyx) issues for one dirty row. -/
def renderRowOps (row : List Cell) (ncols : Nat) (y cw chh pxx pxy : Int)
    (colorMap : Nat → Nat × Nat) : List DrawOp :=
  renderScan row ncols y cw chh pxx pxy colorMap ncols 0 0

end Pg

/-! ## tui.pyx -/

namespace Tui

/-- The per-match style computation of `draw_chat` (tui.pyx): a value with
an attribute bit (`>= 0x10000`) is layered on the line's base color pair;
a color-pair id above 255 is downgraded to `color_default`; otherwise the
pair id selects `color_pair | attrib_map`.  `cp` abstracts
`curses.color_pair` and `am` abstracts `attrib_map` lookup. -/
def color_ready_of (cp am : Nat → Nat) (default_color_id color_default color : Nat) : Nat :=
  if 0x00010000 ≤ color then cp default_color_id ||| color
  else
    let c := if 255 < color then color_default else color
    cp c ||| am c

/-- The `for format_part in line_format[1:]` loop of `draw_chat` (tui.pyx)
for one character position: the first span `(color, start, end)` with
`start <= pos < end` is applied and the loop breaks; the `for`-`else`
applies the line's default style.  `spans` is `line_format[1:]`. -/
def draw_chat_char_style (cp am : Nat → Nat) (spans : List (Nat × Nat × Nat))
    (default_color_id color_default pos : Nat) : Nat :=
  match spans with
  | [] => cp default_color_id ||| am default_color_id
  | (color, s, e) :: rest =>
    if s ≤ pos ∧ pos < e then color_ready_of cp am default_color_id color_default color
    else draw_chat_char_style cp am rest default_color_id color_default pos

/-- The spans of a list that cover position `pos` (`start <= pos < end`). -/
def coveringSpans (spans : List (Nat × Nat × Nat)) (pos : Nat) :
    List (Nat × Nat × Nat) :=
  spans.filter (fun t => decide (t.2.1 ≤ pos ∧ pos < t.2.2))

/-- Spec-side definition, written to the claim's words: the style applied
at `pos` is that of the *last* span in the list covering `pos`, falling
back to the line default. -/
def resolveLast (cp am : Nat → Nat) (spans : List (Nat × Nat × Nat))
    (default_color_id color_default pos : Nat) : Nat :=
  match (coveringSpans spans pos).getLast? with
  | some t => color_ready_of cp am default_color_id color_default t.1
  | none => cp default_color_id ||| am default_color_id

/-- Spec-side definition for the amended claim: the style applied at `pos`
is that of the *first* span in the list covering `pos`, falling back to
the line default. -/
def resolveFirst (cp am : Nat → Nat) (spans : List (Nat × Nat × Nat))
    (default_color_id color_default pos : Nat) : Nat :=
  match (coveringSpans spans pos).head? with
  | some t => color_ready_of cp am default_color_id color_default t.1
  | none => cp default_color_id ||| am default_color_id

end Tui

/-! ## Helper lemmas: search scorer -/

namespace Search

/-- Adding a constant to the score accumulator shifts the loop's final
score by that constant and changes nothing else. -/
theorem fuzzyLoop_score_shift (c q : List Char) (cpos lastm s d : Int) :
    fuzzyLoop q c cpos lastm (s + d) =
      ((fuzzyLoop q c cpos lastm s).1, (fuzzyLoop q c cpos lastm s).2.1,
        (fuzzyLoop q c cpos lastm s).2.2 + d) := by
  induction c generalizing q cpos lastm s with
  | nil => cases q <;> simp [fuzzyLoop]
  | cons ch ct ih =>
    cases q with
    | nil => simp [fuzzyLoop]
    | cons qh qt =>
      by_cases h : qh = ch
      · simp only [fuzzyLoop, if_pos h]
        have : s + d + (if cpos = lastm + 1 then (10 : Int) else 1) =
            s + (if cpos = lastm + 1 then (10 : Int) else 1) + d := by ring
        rw [this, ih]
      · simp only [fuzzyLoop, if_neg h]
        exact ih _ _ _ _

/-- The loop never decreases the score accumulator. -/
theorem fuzzyLoop_score_mono (c q : List Char) (cpos lastm s : Int) :
    s ≤ (fuzzyLoop q c cpos lastm s).2.2 := by
  induction c generalizing q cpos lastm s with
  | nil => cases q <;> simp [fuzzyLoop]
  | cons ch ct ih =>
    cases q with
    | nil => simp [fuzzyLoop]
    | cons qh qt =>
      by_cases h : qh = ch
      · simp only [fuzzyLoop, if_pos h]
        refine le_trans ?_ (ih qt (cpos + 1) cpos _)
        split <;> omega
      · simp only [fuzzyLoop, if_neg h]
        exact ih _ _ _ _

/-- Once the scan position has passed 0, an initial `last_match_pos` of -1
and of -2 are indistinguishable: the final score agrees. -/
theorem fuzzyLoop_init_sync (c : List Char) (qh : Char) (qt : List Char)
    (cpos s : Int) (h : 1 ≤ cpos) :
    fuzzyFinish (fuzzyLoop (qh :: qt) c cpos (-1) s) =
      fuzzyFinish (fuzzyLoop (qh :: qt) c cpos (-2) s) := by
  induction c generalizing cpos s with
  | nil => simp [fuzzyLoop, fuzzyFinish]
  | cons ch ct ih =>
    by_cases hm : qh = ch
    · have h1 : ¬ (cpos = (-1 : Int) + 1) := by omega
      have h2 : ¬ (cpos = (-2 : Int) + 1) := by omega
      simp only [fuzzyLoop, if_pos hm, if_neg h1, if_neg h2]
    · simp only [fuzzyLoop, if_neg hm]
      exact ih (cpos + 1) s (by omega)

end Search

/-! ## Helper lemmas: color quantizer -/

namespace Color

theorem dist2_nonneg (rgb c : Nat × Nat × Nat) : 0 ≤ dist2 rgb c := by
  simp only [dist2]
  exact add_nonneg (add_nonneg (mul_self_nonneg _) (mul_self_nonneg _)) (mul_self_nonneg _)

theorem dist2_self (rgb : Nat × Nat × Nat) : dist2 rgb rgb = 0 := by
  simp [dist2]

theorem dist2_pos_of_ne (rgb c : Nat × Nat × Nat) (h : c ≠ rgb) : 0 < dist2 rgb c := by
  obtain ⟨x, y, z⟩ := rgb
  obtain ⟨a, b, d⟩ := c
  rcases lt_or_eq_of_le (dist2_nonneg (x, y, z) (a, b, d)) with hlt | heq
  · exact hlt
  · exfalso
    apply h
    simp only [dist2] at heq
    have h1 : ((x : Int) - a) * ((x : Int) - a) = 0 := by
      nlinarith [mul_self_nonneg ((x : Int) - a), mul_self_nonneg ((y : Int) - b),
        mul_self_nonneg ((z : Int) - d)]
    have h2 : ((y : Int) - b) * ((y : Int) - b) = 0 := by
      nlinarith [mul_self_nonneg ((x : Int) - a), mul_self_nonneg ((y : Int) - b),
        mul_self_nonneg ((z : Int) - d)]
    have h3 : ((z : Int) - d) * ((z : Int) - d) = 0 := by
      nlinarith [mul_self_nonneg ((x : Int) - a), mul_self_nonneg ((y : Int) - b),
        mul_self_nonneg ((z : Int) - d)]
    have e1 := mul_self_eq_zero.mp h1
    have e2 := mul_self_eq_zero.mp h2
    have e3 := mul_self_eq_zero.mp h3
    have hq : a = x ∧ b = y ∧ d = z := by omega
    rw [hq.1, hq.2.1, hq.2.2]

/-- Once the best distance hits 0, the scan never changes its answer. -/
theorem closestGo_at_zero (rgb : Nat × Nat × Nat) :
    ∀ (rest : List (Nat × Nat × Nat)) (i bi : Nat),
    closestGo rgb rest i bi 0 = (bi, 0) := by
  intro rest
  induction rest with
  | nil => intro i bi; rfl
  | cons c r ih =>
    intro i bi
    have hnn := dist2_nonneg rgb c
    simp only [closestGo, if_neg (by omega : ¬ dist2 rgb c < 0)]
    exact ih (i + 1) bi

/-- While the best distance is positive and the probe occurs in the rest of
the palette, the scan lands on the first occurrence with distance 0. -/
theorem closestGo_found (rgb : Nat × Nat × Nat) :
    ∀ (rest : List (Nat × Nat × Nat)) (i bi : Nat) (bd : Int),
    0 < bd → rgb ∈ rest →
    closestGo rgb rest i bi bd = (i + lowestIdx rest rgb, 0) := by
  intro rest
  induction rest with
  | nil => intro i bi bd _ hmem; exact absurd hmem (List.not_mem_nil rgb)
  | cons c r ih =>
    intro i bi bd hbd hmem
    by_cases hc : c = rgb
    · subst hc
      simp only [closestGo, dist2_self, if_pos hbd, lowestIdx, if_pos rfl]
      rw [closestGo_at_zero]
      simp
    · have hpos := dist2_pos_of_ne rgb c hc
      have hmem2 : rgb ∈ r := by
        rcases List.mem_cons.mp hmem with h | h
        · exact absurd h.symm hc
        · exact h
      simp only [closestGo, lowestIdx, if_neg hc]
      by_cases hlt : dist2 rgb c < bd
      · rw [if_pos hlt, ih (i + 1) i (dist2 rgb c) hpos hmem2]
        simp only [Prod.mk.injEq, and_true]
        omega
      · rw [if_neg hlt, ih (i + 1) bi bd hbd hmem2]
        simp only [Prod.mk.injEq, and_true]
        omega

/-- At the lowest index of an occurrence, the palette holds the probe. -/
theorem lowestIdx_getD (rgb : Nat × Nat × Nat) :
    ∀ colors : List (Nat × Nat × Nat), rgb ∈ colors →
    colors.getD (lowestIdx colors rgb) (0, 0, 0) = rgb := by
  intro colors
  induction colors with
  | nil => intro hmem; exact absurd hmem (List.not_mem_nil rgb)
  | cons c r ih =>
    intro hmem
    by_cases hc : c = rgb
    · simp [lowestIdx, hc]
    · have hmem2 : rgb ∈ r := by
        rcases List.mem_cons.mp hmem with h | h
        · exact absurd h.symm hc
        · exact h
      simp only [lowestIdx, if_neg hc, List.getD_cons_succ]
      exact ih hmem2

theorem bsearchGo_nonneg (cp : Nat) (ranges : List (Nat × Nat)) :
    ∀ (fuel : Nat) (low high : Int), 0 ≤ bsearchGo cp ranges fuel low high := by
  intro fuel
  induction fuel with
  | zero => intro low high; simp [bsearchGo]
  | succ n ih =>
    intro low high
    simp only [bsearchGo]
    split
    · split
      · exact ih _ _
      · split
        · exact ih _ _
        · norm_num
    · norm_num

theorem binary_search_nonneg (cp : Nat) (ranges : List (Nat × Nat)) :
    0 ≤ binary_search cp ranges := by
  cases ranges with
  | nil => simp [binary_search]
  | cons a rest =>
    simp only [binary_search]
    split
    · norm_num
    · exact bsearchGo_nonneg _ _ _ _ _

/-- Every character contributes at least one column. -/
theorem char_width_wch_pos (ranges : List (Nat × Nat)) (ch : Char) :
    1 ≤ char_width_wch ranges ch := by
  simp only [char_width_wch]
  by_cases h : 32 ≤ ch.toNat ∧ ch.toNat < 127
  · rw [if_pos h]
  · rw [if_neg h]
    have := binary_search_nonneg ch.toNat ranges
    omega

theorem len_wch_foldl_shift (ranges : List (Nat × Nat)) :
    ∀ (text : List Char) (t : Int),
    text.foldl (fun a ch => a + char_width_wch ranges ch) t = t + len_wch text ranges := by
  intro text
  induction text with
  | nil => intro t; simp [len_wch]
  | cons ch rest ih =>
    intro t
    simp only [len_wch, List.foldl_cons]
    rw [ih (t + char_width_wch ranges ch), ih (0 + char_width_wch ranges ch)]
    ring

theorem len_wch_cons (ranges : List (Nat × Nat)) (ch : Char) (rest : List Char) :
    len_wch (ch :: rest) ranges = char_width_wch ranges ch + len_wch rest ranges := by
  have h : len_wch (ch :: rest) ranges =
      rest.foldl (fun t c => t + char_width_wch ranges c)
        (0 + char_width_wch ranges ch) := rfl
  rw [h, len_wch_foldl_shift]
  ring

/-- The accumulated width dominates the character count. -/
theorem len_wch_ge_length (ranges : List (Nat × Nat)) :
    ∀ text : List Char, (text.length : Int) ≤ len_wch text ranges := by
  intro text
  induction text with
  | nil => simp [len_wch]
  | cons ch rest ih =>
    rw [len_wch_cons]
    have := char_width_wch_pos ranges ch
    simp only [List.length_cons]
    push_cast
    omega

theorem len_wch_nonneg (ranges : List (Nat × Nat)) (text : List Char) :
    0 ≤ len_wch text ranges := by
  have := len_wch_ge_length ranges text
  have : (0 : Int) ≤ text.length := Int.ofNat_nonneg _
  omega

/-- Starting the scan with accumulated width `t` is the same as scanning
against the reduced budget `maxW - t` and shifting the reported width. -/
theorem limitGo_shift (ranges : List (Nat × Nat)) :
    ∀ (text : List Char) (maxW t : Int),
    limitGo ranges maxW text t =
      ((limitGo ranges (maxW - t) text 0).1, (limitGo ranges (maxW - t) text 0).2 + t) := by
  intro text
  induction text with
  | nil => intro maxW t; simp [limitGo]
  | cons ch rest ih =>
    intro maxW t
    simp only [limitGo]
    by_cases hstop : maxW < t + char_width_wch ranges ch
    · rw [if_pos hstop, if_pos (by omega : maxW - t < 0 + char_width_wch ranges ch)]
      simp
    · rw [if_neg hstop, if_neg (by omega : ¬ maxW - t < 0 + char_width_wch ranges ch)]
      rw [ih maxW (t + char_width_wch ranges ch), ih (maxW - t) (0 + char_width_wch ranges ch)]
      have harg : maxW - (t + char_width_wch ranges ch) =
          maxW - t - (0 + char_width_wch ranges ch) := by ring
      rw [harg]
      simp only [Prod.mk.injEq, true_and]
      ring

/-- Splitting off the head of the text shifts the longest-fitting-prefix
length by one whenever the head fits the budget on its own. -/
theorem spec_longest_fit_cons (ranges : List (Nat × Nat)) (ch : Char) (rest : List Char)
    (maxW : Int) (h : char_width_wch ranges ch ≤ maxW) :
    spec_longest_fit (ch :: rest) maxW ranges =
      spec_longest_fit rest (maxW - char_width_wch ranges ch) ranges + 1 := by
  have hKfacts := Nat.findGreatest_eq_iff.mp
    (rfl : Nat.findGreatest
        (fun k => len_wch (List.take k rest) ranges ≤ maxW - char_width_wch ranges ch)
        rest.length =
      Nat.findGreatest
        (fun k => len_wch (List.take k rest) ranges ≤ maxW - char_width_wch ranges ch)
        rest.length)
  simp only [spec_longest_fit, List.length_cons]
  rw [Nat.findGreatest_eq_iff]
  refine ⟨by omega, ?_, ?_⟩
  · intro _
    rw [List.take_succ_cons, len_wch_cons]
    rcases Nat.eq_zero_or_pos (Nat.findGreatest
        (fun k => len_wch (List.take k rest) ranges ≤ maxW - char_width_wch ranges ch)
        rest.length) with h0 | hpos
    · rw [h0]
      have hz : len_wch (List.take 0 rest) ranges = 0 := rfl
      rw [hz]
      omega
    · have hKP := hKfacts.2.1 (by omega)
      omega
  · intro n hgt hle hP
    obtain ⟨m, rfl⟩ := Nat.exists_eq_succ_of_ne_zero (by omega : n ≠ 0)
    rw [List.take_succ_cons, len_wch_cons] at hP
    exact hKfacts.2.2
      (show Nat.findGreatest
          (fun k => len_wch (List.take k rest) ranges ≤ maxW - char_width_wch ranges ch)
          rest.length < m by omega)
      (show m ≤ rest.length by omega)
      (show len_wch (List.take m rest) ranges ≤ maxW - char_width_wch ranges ch by omega)

/-- The truncation scan returns exactly the longest fitting prefix and its
accumulated width. -/
theorem limit_eq_spec (ranges : List (Nat × Nat)) :
    ∀ (text : List Char) (maxW : Int),
    limit_width_wch text maxW ranges =
      (text.take (spec_longest_fit text maxW ranges),
        len_wch (text.take (spec_longest_fit text maxW ranges)) ranges) := by
  intro text
  induction text with
  | nil => intro maxW; rfl
  | cons ch rest ih =>
    intro maxW
    have hw := char_width_wch_pos ranges ch
    by_cases hstop : maxW < char_width_wch ranges ch
    · have hspec : spec_longest_fit (ch :: rest) maxW ranges = 0 := by
        simp only [spec_longest_fit, List.length_cons]
        rw [Nat.findGreatest_eq_zero_iff]
        intro n hn _ hP
        obtain ⟨m, rfl⟩ := Nat.exists_eq_succ_of_ne_zero (by omega : n ≠ 0)
        rw [List.take_succ_cons, len_wch_cons] at hP
        have := len_wch_nonneg ranges (rest.take m)
        omega
      rw [hspec]
      simp only [limit_width_wch, limitGo, List.take_zero]
      rw [if_pos (by omega : maxW < 0 + char_width_wch ranges ch)]
      rfl
    · have hshift := limitGo_shift ranges rest maxW (0 + char_width_wch ranges ch)
      have hspec := spec_longest_fit_cons ranges ch rest maxW (by omega)
      rw [hspec, List.take_succ_cons, len_wch_cons]
      simp only [limit_width_wch, limitGo]
      rw [if_neg (by omega : ¬ maxW < 0 + char_width_wch ranges ch), hshift]
      have harg : maxW - (0 + char_width_wch ranges ch) = maxW - char_width_wch ranges ch := by
        ring
      rw [harg]
      have hs := ih (maxW - char_width_wch ranges ch)
      simp only [limit_width_wch] at hs
      rw [hs]
      simp only [Prod.mk.injEq, true_and]
      ring

end Color

/-! ## Helper lemmas: cell buffer -/

namespace Pg

theorem getD_set_ne {α : Type} (l : List α) (i j : Nat) (a d : α) (h : i ≠ j) :
    (l.set i a).getD j d = l.getD j d := by
  simp [List.getD, List.get?_eq_getElem?, List.getElem?_set_ne h]

theorem getD_set_self {α : Type} (l : List α) (i : Nat) (a d : α) (h : i < l.length) :
    (l.set i a).getD i d = a := by
  simp [List.getD, List.get?_eq_getElem?, List.getElem?_set_eq_of_lt a h]

theorem getD_of_length_le {α : Type} (l : List α) (j : Nat) (d : α) (h : l.length ≤ j) :
    l.getD j d = d := by
  simp [List.getD, List.get?_eq_getElem?, List.getElem?_eq_none h]

theorem setCells_length (cs : List Cell) :
    ∀ (row : List Cell) (x : Nat), (setCells row x cs).length = row.length := by
  induction cs with
  | nil => intro row x; rfl
  | cons c rest ih =>
    intro row x
    simp only [setCells]
    rw [ih (row.set x c) (x + 1), List.length_set]

/-- Positions outside the written window are untouched. -/
theorem setCells_getD_out (cs : List Cell) :
    ∀ (row : List Cell) (x j : Nat) (d : Cell), (j < x ∨ x + cs.length ≤ j) →
    (setCells row x cs).getD j d = row.getD j d := by
  induction cs with
  | nil => intro row x j d _; rfl
  | cons c rest ih =>
    intro row x j d hout
    simp only [List.length_cons] at hout
    simp only [setCells]
    rw [ih (row.set x c) (x + 1) j d (by omega)]
    exact getD_set_ne row x j c d (by omega)

/-- Positions inside the written window (and inside the row) receive the
corresponding stored cell. -/
theorem setCells_getD_in (cs : List Cell) :
    ∀ (row : List Cell) (x j : Nat) (d : Cell),
    x ≤ j → j < x + cs.length → j < row.length →
    (setCells row x cs).getD j d = cs.getD (j - x) d := by
  induction cs with
  | nil => intro row x j d _ h _; simp only [List.length_nil] at h; omega
  | cons c rest ih =>
    intro row x j d hlo hhi hrow
    simp only [setCells]
    by_cases hj : j = x
    · subst hj
      rw [setCells_getD_out rest (row.set j c) (j + 1) j d (Or.inl (by omega))]
      rw [getD_set_self row j c d hrow]
      simp
    · rw [ih (row.set x c) (x + 1) j d (by omega)
        (by simp only [List.length_cons] at hhi; omega) (by rw [List.length_set]; exact hrow)]
      have hsub : j - x = (j - (x + 1)) + 1 := by omega
      rw [hsub]
      rfl

/-- The per-line loop only ever adds rows to the dirty list. -/
theorem insstrGo_dirty_mono (nlines ncols y x attr : Nat) :
    ∀ (lines : List (List Char)) (i : Nat) (buf : List (List Cell)) (dirty : List Nat)
      (r : Nat), r ∈ dirty →
    r ∈ (insstrGo nlines ncols y x attr lines i buf dirty).2 := by
  intro lines
  induction lines with
  | nil => intro i buf dirty r hr; exact hr
  | cons line rest ih =>
    intro i buf dirty r hr
    simp only [insstrGo]
    by_cases hbreak : nlines ≤ y + i
    · rw [if_pos hbreak]; exact hr
    · rw [if_neg hbreak]
      by_cases hskip : ncols ≤ x
      · rw [if_pos hskip]; exact ih (i + 1) buf dirty r hr
      · rw [if_neg hskip]
        exact ih (i + 1) _ _ r (List.mem_cons_of_mem _ hr)

/-- Any row whose contents the per-line loop changes is added to the dirty
list. -/
theorem insstrGo_change_dirty (nlines ncols y x attr : Nat) :
    ∀ (lines : List (List Char)) (i : Nat) (buf : List (List Cell)) (dirty : List Nat)
      (r : Nat),
    (insstrGo nlines ncols y x attr lines i buf dirty).1.getD r [] ≠ buf.getD r [] →
    r ∈ (insstrGo nlines ncols y x attr lines i buf dirty).2 := by
  intro lines
  induction lines with
  | nil => intro i buf dirty r hne; exact absurd rfl hne
  | cons line rest ih =>
    intro i buf dirty r hne
    simp only [insstrGo] at hne ⊢
    by_cases hbreak : nlines ≤ y + i
    · rw [if_pos hbreak] at hne ⊢; exact absurd rfl hne
    · rw [if_neg hbreak] at hne ⊢
      by_cases hskip : ncols ≤ x
      · rw [if_pos hskip] at hne ⊢; exact ih (i + 1) buf dirty r hne
      · rw [if_neg hskip] at hne ⊢
        by_cases hchg :
            (insstrGo nlines ncols y x attr rest (i + 1)
              (buf.set (y + i)
                (if rest ≠ [] ∧ min (ncols - x) line.length < ncols - x then
                  setCells
                    (setCells (buf.getD (y + i) []) x
                      ((line.take (min (ncols - x) line.length)).map (fun ch => (ch, attr))))
                    (x + min (ncols - x) line.length)
                    (List.replicate (ncols - x - min (ncols - x) line.length) (' ', attr))
                else
                  setCells (buf.getD (y + i) []) x
                    ((line.take (min (ncols - x) line.length)).map (fun ch => (ch, attr)))))
              ((y + i) :: dirty)).1.getD r [] =
            (buf.set (y + i)
                (if rest ≠ [] ∧ min (ncols - x) line.length < ncols - x then
                  setCells
                    (setCells (buf.getD (y + i) []) x
                      ((line.take (min (ncols - x) line.length)).map (fun ch => (ch, attr))))
                    (x + min (ncols - x) line.length)
                    (List.replicate (ncols - x - min (ncols - x) line.length) (' ', attr))
                else
                  setCells (buf.getD (y + i) []) x
                    ((line.take (min (ncols - x) line.length)).map (fun ch => (ch, attr))))).getD
              r []
        · have hr : r = y + i := by
            by_contra hry
            apply hne
            rw [hchg]
            exact getD_set_ne buf (y + i) r _ [] (Ne.symm hry)
          exact insstrGo_dirty_mono nlines ncols y x attr rest (i + 1) _ _ r
            (hr ▸ List.mem_cons_self _ _)
        · exact ih (i + 1) _ _ r hchg

/-- The per-line loop never changes the number of rows. -/
theorem insstrGo_length (nlines ncols y x attr : Nat) :
    ∀ (lines : List (List Char)) (i : Nat) (buf : List (List Cell)) (dirty : List Nat),
    (insstrGo nlines ncols y x attr lines i buf dirty).1.length = buf.length := by
  intro lines
  induction lines with
  | nil => intro i buf dirty; rfl
  | cons line rest ih =>
    intro i buf dirty
    simp only [insstrGo]
    by_cases hbreak : nlines ≤ y + i
    · rw [if_pos hbreak]
    · rw [if_neg hbreak]
      by_cases hskip : ncols ≤ x
      · rw [if_pos hskip]; exact ih (i + 1) buf dirty
      · rw [if_neg hskip]
        rw [ih (i + 1) _ _, List.length_set]

/-- One operation preserves the shape invariant. -/
theorem applyOp_wf (s : PgState) (op : POp) (h : pgWF s) : pgWF (applyOp s op) := by
  cases op with
  | write y x text attr =>
    simp only [applyOp, insstr, pgWF] at h ⊢
    rw [insstrGo_length]
    exact h
  | render =>
    simp only [applyOp, pgWF] at h ⊢
    rw [List.length_map, List.length_range]
    exact h

/-- The render pass's new `painted` entry for a row in range. -/
theorem painted_update_getD (s : PgState) (r : Nat) (h : r < s.painted.length) :
    ((List.range s.painted.length).map
        (fun rr => if rr ∈ s.dirty then s.buffer.getD rr [] else s.painted.getD rr [])).getD
      r [] =
    if r ∈ s.dirty then s.buffer.getD r [] else s.painted.getD r [] := by
  rw [List.getD_eq_getElem?_getD, List.getElem?_map, List.getElem?_range h]
  rfl

/-- One operation preserves the amended dirty-superset invariant. -/
theorem applyOp_sup (s : PgState) (op : POp) (hwf : pgWF s) (hinv : dirtySupDiff s) :
    dirtySupDiff (applyOp s op) := by
  cases op with
  | write y x text attr =>
    intro r hne
    simp only [applyOp, insstr] at hne ⊢
    by_cases hchg : (insstrGo s.buffer.length s.ncols y x attr (splitNl text) 0
        s.buffer s.dirty).1.getD r [] = s.buffer.getD r []
    · have hdiff : s.buffer.getD r [] ≠ s.painted.getD r [] := by
        intro heq; exact hne (by rw [hchg, heq])
      exact insstrGo_dirty_mono _ _ _ _ _ _ _ _ _ r (hinv r hdiff)
    · exact insstrGo_change_dirty _ _ _ _ _ _ _ _ _ r hchg
  | render =>
    intro r hne
    exfalso
    simp only [applyOp] at hne
    by_cases hr : r < s.painted.length
    · rw [painted_update_getD s r hr] at hne
      by_cases hd : r ∈ s.dirty
      · rw [if_pos hd] at hne; exact hne rfl
      · rw [if_neg hd] at hne
        have : s.buffer.getD r [] = s.painted.getD r [] := by
          by_contra hx
          exact hd (hinv r hx)
        exact hne this
    · have h1 : s.buffer.getD r [] = [] :=
        getD_of_length_le _ _ _ (by rw [pgWF] at hwf; omega)
      have h2 : ((List.range s.painted.length).map
          (fun rr => if rr ∈ s.dirty then s.buffer.getD rr [] else s.painted.getD rr [])).getD
            r [] = [] :=
        getD_of_length_le _ _ _ (by rw [List.length_map, List.length_range]; omega)
      rw [h1, h2] at hne
      exact hne rfl

/-- Operation sequences preserve shape and the dirty-superset invariant. -/
theorem runOps_pres (ops : List POp) :
    ∀ s : PgState, pgWF s → dirtySupDiff s →
    pgWF (runOps s ops) ∧ dirtySupDiff (runOps s ops) := by
  induction ops with
  | nil => intro s hwf hinv; exact ⟨hwf, hinv⟩
  | cons op rest ih =>
    intro s hwf hinv
    simp only [runOps, List.foldl_cons]
    exact ih (applyOp s op) (applyOp_wf s op hwf) (applyOp_sup s op hwf hinv)

/-- Splitting `line ++ "\n"` yields the line and one trailing empty
segment, provided the line itself has no newline. -/
theorem splitNl_append_nl :
    ∀ l : List Char, '\n' ∉ l → splitNl (l ++ ['\n']) = [l, []] := by
  intro l
  induction l with
  | nil => intro _; rfl
  | cons c rest ih =>
    intro hnl
    have hc : c ≠ '\n' := fun h => hnl (h ▸ List.mem_cons_self c rest)
    have hr : '\n' ∉ rest := fun h => hnl (List.mem_cons_of_mem c h)
    simp only [List.cons_append, splitNl, List.append_eq, ih hr]
    rw [if_neg hc]

theorem getD_replicate {α : Type} (n k : Nat) (a d : α) (h : k < n) :
    (List.replicate n a).getD k d = a := by
  rw [List.getD_eq_getElem?_getD, List.getElem?_replicate, if_pos h]
  rfl

/-- The run-collection loop never moves the scan index backwards. -/
theorem collectRun_start_le (row : List Cell) (ncols attr : Nat) :
    ∀ (fuel q : Nat), q ≤ (collectRun row ncols attr fuel q).2 := by
  intro fuel
  induction fuel with
  | zero => intro q; exact Nat.le_refl q
  | succ n ih =>
    intro q
    simp only [collectRun]
    by_cases hq : q < ncols
    · rw [if_pos hq]
      by_cases hbr : (((row.getD q (' ', 0)).2 != attr) || is_emoji (row.getD q (' ', 0)).1) = true
      · rw [if_pos hbr]
      · rw [if_neg hbr]
        have h := ih (q + 1)
        dsimp only
        omega
    · rw [if_neg hq]

/-- Two rows that differ only at index `i + 1` are indistinguishable to a
run collection starting at or after `i + 2`. -/
theorem collectRun_agree_after (r1 : List Cell) (i : Nat) (c : Cell) (ncols attr : Nat) :
    ∀ (fuel q : Nat), i + 2 ≤ q →
    collectRun r1 ncols attr fuel q = collectRun (r1.set (i + 1) c) ncols attr fuel q := by
  intro fuel
  induction fuel with
  | zero => intro q _; rfl
  | succ n ih =>
    intro q hq
    have hcell : (r1.set (i + 1) c).getD q (' ', 0) = r1.getD q (' ', 0) :=
      getD_set_ne r1 (i + 1) q c (' ', 0) (by omega)
    simp only [collectRun, hcell]
    by_cases hlt : q < ncols
    · rw [if_pos hlt, if_pos hlt]
      by_cases hbr : (((r1.getD q (' ', 0)).2 != attr) || is_emoji (r1.getD q (' ', 0)).1) = true
      · rw [if_pos hbr, if_pos hbr]
      · rw [if_neg hbr, if_neg hbr, ih (q + 1) (by omega)]
    · rw [if_neg hlt, if_neg hlt]

/-- Starting at or before an emoji at index `i`, a run collection on two
rows differing only at `i + 1` behaves identically and stops no later than
`i` (the emoji breaks the run before the differing cell is read). -/
theorem collectRun_agree_before (r1 : List Cell) (i : Nat) (c : Cell) (ncols attr : Nat)
    (hemoji : is_emoji ((r1.getD i (' ', 0)).1) = true) :
    ∀ (fuel q : Nat), q ≤ i →
    collectRun r1 ncols attr fuel q = collectRun (r1.set (i + 1) c) ncols attr fuel q ∧
    (collectRun r1 ncols attr fuel q).2 ≤ i := by
  intro fuel
  induction fuel with
  | zero => intro q hq; exact ⟨rfl, hq⟩
  | succ n ih =>
    intro q hq
    have hcell : (r1.set (i + 1) c).getD q (' ', 0) = r1.getD q (' ', 0) :=
      getD_set_ne r1 (i + 1) q c (' ', 0) (by omega)
    simp only [collectRun, hcell]
    by_cases hlt : q < ncols
    · rw [if_pos hlt, if_pos hlt]
      by_cases hbr : (((r1.getD q (' ', 0)).2 != attr) || is_emoji (r1.getD q (' ', 0)).1) = true
      · rw [if_pos hbr, if_pos hbr]
        exact ⟨rfl, hq⟩
      · rw [if_neg hbr, if_neg hbr]
        have hqi : q ≠ i := by
          intro hqe
          subst hqe
          rw [hemoji, Bool.or_true] at hbr
          exact hbr rfl
        obtain ⟨heq, hle⟩ := ih (q + 1) (by omega)
        rw [heq]
        exact ⟨rfl, by dsimp only; rw [← heq]; exact hle⟩
    · rw [if_neg hlt, if_neg hlt]
      exact ⟨rfl, hq⟩

/-- The outer render scan on two rows differing only at `i + 1` — where
row 1 holds an emoji at `i` and no emoji earlier — emits identical draw
operations from any position that is at or before `i` (with no emoji
between it and `i`) or at least `i + 2`.  The differing cell at `i + 1` is
the one the emoji's two-column advance skips. -/
theorem renderScan_agree (r1 : List Cell) (i : Nat) (c : Cell) (ncols : Nat)
    (y cw chh pxx pxy : Int) (cm : Nat → Nat × Nat)
    (hemoji : is_emoji ((r1.getD i (' ', 0)).1) = true) :
    ∀ (fuel p dx : Nat),
    ((p ≤ i ∧ ∀ m, p ≤ m → m < i → is_emoji ((r1.getD m (' ', 0)).1) = false) ∨ i + 2 ≤ p) →
    renderScan r1 ncols y cw chh pxx pxy cm fuel p dx =
      renderScan (r1.set (i + 1) c) ncols y cw chh pxx pxy cm fuel p dx := by
  intro fuel
  induction fuel with
  | zero => intro p dx _; rfl
  | succ n ih =>
    intro p dx hpos
    have hpne : p ≠ i + 1 := by
      rcases hpos with ⟨h1, _⟩ | h1 <;> omega
    have hcell : (r1.set (i + 1) c).getD p (' ', 0) = r1.getD p (' ', 0) :=
      getD_set_ne r1 (i + 1) p c (' ', 0) (by omega)
    simp only [renderScan, hcell]
    by_cases hlt : p < ncols
    · rw [if_pos hlt, if_pos hlt]
      by_cases hem : is_emoji ((r1.getD p (' ', 0)).1) = true
      · rw [if_pos hem, if_pos hem]
        rw [ih (p + 2) (dx + 2) (Or.inr (by
          rcases hpos with ⟨h1, hno⟩ | h1
          · rcases Nat.lt_or_ge p i with hpi | hpi
            · exact absurd hem (by rw [hno p (Nat.le_refl p) hpi]; simp)
            · omega
          · omega))]
      · rw [if_neg hem, if_neg hem]
        rcases hpos with ⟨h1, hno⟩ | h1
        · have hpi : p < i := by
            rcases Nat.lt_or_ge p i with hpi | hpi
            · exact hpi
            · have : p = i := by omega
              subst this
              exact absurd hemoji hem
          obtain ⟨hcr, hcr2⟩ := collectRun_agree_before r1 i c ncols
            ((r1.getD p (' ', 0)).2) hemoji ncols p (by omega)
          rw [← hcr]
          by_cases hempty : (collectRun r1 ncols ((r1.getD p (' ', 0)).2) ncols p).1 = []
          · rw [if_pos hempty, if_pos hempty]
            exact ih (p + 1) (dx + 1) (Or.inl ⟨by omega, fun m hm1 hm2 => hno m (by omega) hm2⟩)
          · rw [if_neg hempty, if_neg hempty]
            have hst := collectRun_start_le r1 ncols ((r1.getD p (' ', 0)).2) ncols p
            rw [ih (collectRun r1 ncols ((r1.getD p (' ', 0)).2) ncols p).2 _
              (Or.inl ⟨hcr2, fun m hm1 hm2 => hno m (by omega) hm2⟩)]
        · rw [← collectRun_agree_after r1 i c ncols ((r1.getD p (' ', 0)).2) ncols p h1]
          by_cases hempty : (collectRun r1 ncols ((r1.getD p (' ', 0)).2) ncols p).1 = []
          · rw [if_pos hempty, if_pos hempty]
            exact ih (p + 1) (dx + 1) (Or.inr (by omega))
          · rw [if_neg hempty, if_neg hempty]
            have hst := collectRun_start_le r1 ncols ((r1.getD p (' ', 0)).2) ncols p
            rw [ih (collectRun r1 ncols ((r1.getD p (' ', 0)).2) ncols p).2 _
              (Or.inr (by omega))]
    · rw [if_neg hlt, if_neg hlt]

end Pg

/-! ## Claim theorems -/

open Search Color Media Pg Tui

/-- C1 (counterexample): with spans `[(1,0,1), (2,0,1)]` both covering
position 0, `draw_chat` applies style 1 — the *first* span in the list —
whereas the claim's last-span-wins rule would apply style 2.  (`cp` is the
identity, `attrib_map` is constantly 0, so the applied style is the span's
color itself.) -/
theorem C1_counterexample :
    draw_chat_char_style (fun n => n) (fun _ => 0) [(1, 0, 1), (2, 0, 1)] 0 0 0 = 1 ∧
    resolveLast (fun n => n) (fun _ => 0) [(1, 0, 1), (2, 0, 1)] 0 0 0 = 2 ∧
    draw_chat_char_style (fun n => n) (fun _ => 0) [(1, 0, 1), (2, 0, 1)] 0 0 0 ≠
      resolveLast (fun n => n) (fun _ => 0) [(1, 0, 1), (2, 0, 1)] 0 0 0 := by
  refine ⟨rfl, rfl, ?_⟩
  decide

/-- C1 (amended): for every chat line position, the style-span resolution
of `draw_chat` gives *earlier* entries in the supplied span list precedence
over later ones: the style applied at `pos` is that of the first span in
the list with `start ≤ pos < end`, falling back to the line's default
style when no span covers `pos`. -/
theorem C1_first_span_wins (cp am : Nat → Nat) (spans : List (Nat × Nat × Nat))
    (default_color_id color_default pos : Nat) :
    draw_chat_char_style cp am spans default_color_id color_default pos =
      resolveFirst cp am spans default_color_id color_default pos := by
  induction spans with
  | nil => rfl
  | cons t rest ih =>
    obtain ⟨color, s, e⟩ := t
    by_cases h : s ≤ pos ∧ pos < e
    · simp [draw_chat_char_style, resolveFirst, coveringSpans, h]
    · simpa [draw_chat_char_style, resolveFirst, coveringSpans, h] using ih

/-- C2 (counterexample): `fuzzy_match_score("ab", "ab")` is 29, not the
claimed 20: the first matched character lands at candidate index 0, where
`cpos == last_match_pos + 1` holds (`0 == -1 + 1`), so it earns the
10-point consecutive bonus rather than the claimed 1-point gap score
(10 + 10 + early-position bonus 9 = 29). -/
theorem C2_counterexample :
    fuzzy_match_score_single ['a', 'b'] ['a', 'b'] = 29 ∧
    fuzzy_match_score ['a', 'b'] ['a', 'b'] = 29 ∧
    fuzzy_single_claim ['a', 'b'] ['a', 'b'] = 20 ∧
    (29 : Int) ≠ 20 := by
  refine ⟨by decide, by decide, by decide, by decide⟩

/-- C2 (amended): the first matched character of a word is scored as a
10-point consecutive match exactly when it matches at candidate index 0
(because `last_match_pos` starts at -1), and as a 1-point gap match
otherwise; equivalently, the code's score exceeds the claimed
first-char-always-gap score by exactly 9 precisely when the (case-folded)
first characters coincide and the word matches at all.  Concretely,
`fuzzy_match_score("ab", "ab") = 29`. -/
theorem C2_first_char_consecutive :
    (∀ q c : List Char, q ≠ [] →
      fuzzy_match_score_single q c =
        fuzzy_single_claim q c +
          (if (lowerStr q).head? = (lowerStr c).head? ∧ fuzzy_single_claim q c ≠ 0
           then 9 else 0)) ∧
    fuzzy_match_score_single ['a', 'b'] ['a', 'b'] = 29 := by
  constructor
  · intro q c hq
    obtain ⟨qh, qt, rfl⟩ := List.exists_cons_of_ne_nil hq
    cases c with
    | nil =>
      simp [fuzzy_match_score_single, fuzzy_single_claim, lowerStr, fuzzyLoop, fuzzyFinish]
    | cons ch ct =>
      by_cases hm : qh.toLower = ch.toLower
      · have hcode : fuzzy_match_score_single (qh :: qt) (ch :: ct) =
            fuzzyFinish (fuzzyLoop (lowerStr qt) (lowerStr ct) 1 0 10) := by
          simp [fuzzy_match_score_single, lowerStr, fuzzyLoop, hm, fuzzyFinish]
        have hclaim : fuzzy_single_claim (qh :: qt) (ch :: ct) =
            fuzzyFinish (fuzzyLoop (lowerStr qt) (lowerStr ct) 1 0 1) := by
          simp [fuzzy_single_claim, lowerStr, fuzzyLoop, hm, fuzzyFinish]
        have hshift : fuzzyLoop (lowerStr qt) (lowerStr ct) 1 0 10 =
            ((fuzzyLoop (lowerStr qt) (lowerStr ct) 1 0 1).1,
              (fuzzyLoop (lowerStr qt) (lowerStr ct) 1 0 1).2.1,
              (fuzzyLoop (lowerStr qt) (lowerStr ct) 1 0 1).2.2 + 9) := by
          have h := fuzzyLoop_score_shift (lowerStr ct) (lowerStr qt) 1 0 1 9
          have h10 : (1 : Int) + 9 = 10 := by norm_num
          rw [h10] at h
          exact h
        rw [hcode, hclaim, hshift]
        have hcond : (lowerStr (qh :: qt)).head? = (lowerStr (ch :: ct)).head? := by
          simp [lowerStr, hm]
        by_cases hrr : (fuzzyLoop (lowerStr qt) (lowerStr ct) 1 0 1).1 = []
        · have hpos : 1 ≤ (fuzzyLoop (lowerStr qt) (lowerStr ct) 1 0 1).2.2 :=
            fuzzyLoop_score_mono _ _ _ _ _
          have hfin : fuzzyFinish (fuzzyLoop (lowerStr qt) (lowerStr ct) 1 0 1) =
              (fuzzyLoop (lowerStr qt) (lowerStr ct) 1 0 1).2.2 +
                max 0 (10 - (fuzzyLoop (lowerStr qt) (lowerStr ct) 1 0 1).2.1) := by
            simp [fuzzyFinish, hrr]
          have hfin2 : fuzzyFinish ((fuzzyLoop (lowerStr qt) (lowerStr ct) 1 0 1).1,
              (fuzzyLoop (lowerStr qt) (lowerStr ct) 1 0 1).2.1,
              (fuzzyLoop (lowerStr qt) (lowerStr ct) 1 0 1).2.2 + 9) =
              ((fuzzyLoop (lowerStr qt) (lowerStr ct) 1 0 1).2.2 + 9) +
                max 0 (10 - (fuzzyLoop (lowerStr qt) (lowerStr ct) 1 0 1).2.1) := by
            simp [fuzzyFinish, hrr]
          have hne : fuzzyFinish (fuzzyLoop (lowerStr qt) (lowerStr ct) 1 0 1) ≠ 0 := by
            rw [hfin]
            have := le_max_left (0 : Int)
              (10 - (fuzzyLoop (lowerStr qt) (lowerStr ct) 1 0 1).2.1)
            omega
          rw [if_pos ⟨hcond, hne⟩, hfin, hfin2]
          ring
        · have hfin : fuzzyFinish (fuzzyLoop (lowerStr qt) (lowerStr ct) 1 0 1) = 0 := by
            simp [fuzzyFinish, hrr]
          have hfin2 : fuzzyFinish ((fuzzyLoop (lowerStr qt) (lowerStr ct) 1 0 1).1,
              (fuzzyLoop (lowerStr qt) (lowerStr ct) 1 0 1).2.1,
              (fuzzyLoop (lowerStr qt) (lowerStr ct) 1 0 1).2.2 + 9) = 0 := by
            simp [fuzzyFinish, hrr]
          rw [hfin, hfin2, if_neg]
          · norm_num
          · rintro ⟨-, hno⟩
            exact hno rfl
      · have hcode : fuzzy_match_score_single (qh :: qt) (ch :: ct) =
            fuzzyFinish (fuzzyLoop (qh.toLower :: lowerStr qt) (lowerStr ct) 1 (-1) 0) := by
          simp [fuzzy_match_score_single, lowerStr, fuzzyLoop, hm]
        have hclaim : fuzzy_single_claim (qh :: qt) (ch :: ct) =
            fuzzyFinish (fuzzyLoop (qh.toLower :: lowerStr qt) (lowerStr ct) 1 (-2) 0) := by
          simp [fuzzy_single_claim, lowerStr, fuzzyLoop, hm]
        have hcond : ¬ ((lowerStr (qh :: qt)).head? = (lowerStr (ch :: ct)).head? ∧
            fuzzy_single_claim (qh :: qt) (ch :: ct) ≠ 0) := by
          rintro ⟨hh, -⟩
          simp only [lowerStr, List.map_cons, List.head?_cons, Option.some.injEq] at hh
          exact hm hh
        rw [if_neg hcond, add_zero, hcode, hclaim]
        exact fuzzyLoop_init_sync _ _ _ _ _ le_rfl
  · decide

/-- C2 (witness): the amended relation evaluated at word `"ab"` and
candidate `"xab"`, where the first matched character sits at candidate
index 1 and is scored as a gap, so code score and claimed score agree. -/
theorem C2_first_char_consecutive_witness :
    fuzzy_match_score_single ['a', 'b'] ['x', 'a', 'b'] =
      fuzzy_single_claim ['a', 'b'] ['x', 'a', 'b'] +
        (if (lowerStr ['a', 'b']).head? = (lowerStr ['x', 'a', 'b']).head? ∧
            fuzzy_single_claim ['a', 'b'] ['x', 'a', 'b'] ≠ 0
         then 9 else 0) :=
  C2_first_char_consecutive.1 ['a', 'b'] ['x', 'a', 'b'] (by decide)

/-- C3 (code bug): at luminance 255 with a 16-glyph ramp the code's index
`(255 * 16) // 255` equals 16 — one past the end of the ramp — while the
specified formula `(255 * 16) // 256` gives the in-bounds 15.  The ramp
lookup is therefore out of bounds at maximal luminance for every ramp
length. -/
theorem C3_ramp_index_out_of_bounds :
    img_glyph_index 255 16 = 16 ∧
    ¬ img_glyph_index 255 16 < 16 ∧
    spec_glyph_index 255 16 = 15 ∧
    spec_glyph_index 255 16 < 16 := by
  decide

/-- C4 (code bug): with the italic flag alone set, `render` selects the
bold-italic font, not the italic font: the inner test of the
`elif flags & A_ITALIC` arm re-checks `A_ITALIC` instead of `A_BOLD`, so
its italic-font branch is dead.  The remaining selections match the
claim. -/
theorem C4_italic_selects_bold_italic :
    fontFor A_ITALIC = FontKind.boldItalic ∧
    FontKind.boldItalic ≠ FontKind.italic ∧
    fontFor (A_BOLD ||| A_ITALIC) = FontKind.boldItalic ∧
    fontFor A_BOLD = FontKind.bold ∧
    fontFor 0 = FontKind.regular := by
  decide

/-- C5 (counterexample): the claimed "iff" fails.  Starting from a clean
one-cell buffer (which satisfies the iff), write `'a'`, render, then write
the identical `'a'` again: the row re-enters the dirty set although its
cells equal the contents at the last completed render pass, so dirty
membership does not imply a difference. -/
theorem C5_counterexample :
    dirtyIffDiff
      { ncols := 1, buffer := [[(' ', 0)]], painted := [[(' ', 0)]], dirty := [] } ∧
    ¬ dirtyIffDiff
      (runOps { ncols := 1, buffer := [[(' ', 0)]], painted := [[(' ', 0)]], dirty := [] }
        [POp.write 0 0 ['a'] 1, POp.render, POp.write 0 0 ['a'] 1]) := by
  constructor
  · unfold dirtyIffDiff
    decide
  · unfold dirtyIffDiff
    decide

/-- C5 (amended): in every state reachable by `insstr` writes and render
passes from a state satisfying the shape invariant, the dirty set is a
*superset* of the rows that differ from their contents at the last
completed render pass: every differing row is dirty, and any write that
changes a row puts that row's index into the dirty set — but a dirty row's
cells may coincide with the last-rendered contents (rewriting identical
content still marks the row dirty). -/
theorem C5_dirty_superset :
    (∀ (s : PgState) (ops : List POp), pgWF s → dirtySupDiff s →
      dirtySupDiff (runOps s ops)) ∧
    (∀ (s : PgState) (y x : Nat) (text : List Char) (attr : Nat) (r : Nat),
      (applyOp s (POp.write y x text attr)).buffer.getD r [] ≠ s.buffer.getD r [] →
      r ∈ (applyOp s (POp.write y x text attr)).dirty) := by
  constructor
  · intro s ops hwf hinv
    exact (runOps_pres ops s hwf hinv).2
  · intro s y x text attr r hne
    simp only [applyOp, insstr] at hne ⊢
    exact insstrGo_change_dirty _ _ _ _ _ _ _ _ _ r hne

/-- C5 (witness): the amended invariant holds after a concrete write on a
one-cell buffer, and that write marks row 0 dirty. -/
theorem C5_dirty_superset_witness :
    dirtySupDiff
      (runOps { ncols := 1, buffer := [[(' ', 0)]], painted := [[(' ', 0)]], dirty := [] }
        [POp.write 0 0 ['a'] 1]) ∧
    0 ∈ (applyOp { ncols := 1, buffer := [[(' ', 0)]], painted := [[(' ', 0)]], dirty := [] }
        (POp.write 0 0 ['a'] 1)).dirty :=
  ⟨C5_dirty_superset.1
      { ncols := 1, buffer := [[(' ', 0)]], painted := [[(' ', 0)]], dirty := [] }
      [POp.write 0 0 ['a'] 1] rfl (fun r h => absurd rfl h),
    C5_dirty_superset.2
      { ncols := 1, buffer := [[(' ', 0)]], painted := [[(' ', 0)]], dirty := [] }
      0 0 ['a'] 1 0 (by decide)⟩

/-- C6: writing one newline-free line shorter than the row width at column
0 with style `attr`, followed by the row separator, leaves every cell of
that row to the right of the text holding a space glyph with that same
style — the row's background fill reaches its own edge. -/
theorem C6_background_fill (line : List Char) (attr ncols nlines y : Nat)
    (buf : List (List Cell)) (dirty : List Nat)
    (hnl : '\n' ∉ line) (hy : y < nlines) (hlen : line.length < ncols)
    (hbl : nlines ≤ buf.length) (hrow : (buf.getD y []).length = ncols) :
    ∀ j, line.length ≤ j → j < ncols →
      ((insstr nlines ncols y 0 (line ++ ['\n']) attr buf dirty).1.getD y []).getD
        j (' ', 0) = (' ', attr) := by
  intro j hj1 hj2
  have hR : (setCells
      (setCells (buf.getD y []) 0 (line.map (fun ch => (ch, attr))))
      line.length (List.replicate (ncols - line.length) (' ', attr))).getD j (' ', 0) =
      (' ', attr) := by
    have hinlen : (setCells (buf.getD y []) 0 (line.map (fun ch => (ch, attr)))).length =
        ncols := by
      rw [setCells_length, hrow]
    rw [setCells_getD_in _ _ _ _ _ hj1
      (by rw [List.length_replicate]; omega) (by rw [hinlen]; omega)]
    exact getD_replicate _ _ _ _ (by omega)
  rw [insstr, splitNl_append_nl line hnl]
  have hmin : min ncols line.length = line.length := by omega
  simp only [insstrGo, Nat.sub_zero, Nat.add_zero, Nat.zero_add, hmin, List.take_length]
  rw [if_neg (show ¬ nlines ≤ y by omega)]
  rw [if_neg (show ¬ ncols ≤ 0 by omega)]
  rw [if_pos (show (([] : List Char) :: [] ≠ [] ∧ line.length < ncols) from
    ⟨by simp, hlen⟩)]
  by_cases hb2 : nlines ≤ y + 1
  · rw [if_pos hb2]
    rw [getD_set_self buf y _ [] (by omega)]
    exact hR
  · rw [if_neg hb2]
    rw [if_neg (show ¬ ncols ≤ 0 by omega)]
    rw [getD_set_ne _ (y + 1) y _ [] (by omega)]
    rw [getD_set_self buf y _ [] (by omega)]
    exact hR

/-- C6 (witness): a two-character line written into a five-column row pads
columns 2–4 with spaces carrying the written style. -/
theorem C6_background_fill_witness :
    ((insstr 2 5 0 0 (['h', 'i'] ++ ['\n']) 7
        [[(' ', 0), (' ', 0), (' ', 0), (' ', 0), (' ', 0)],
          [('z', 9), ('z', 9), ('z', 9), ('z', 9), ('z', 9)]] []).1.getD 0 []).getD
      4 (' ', 0) = (' ', 7) :=
  C6_background_fill ['h', 'i'] 7 5 2 0
    [[(' ', 0), (' ', 0), (' ', 0), (' ', 0), (' ', 0)],
      [('z', 9), ('z', 9), ('z', 9), ('z', 9), ('z', 9)]] []
    (by decide) (by decide) (by decide) (by decide) (by decide)
    4 (by decide) (by decide)

/-- C7: for every string and every `max_width`, `limit_width_wch` returns
the longest prefix of the string whose accumulated display width does not
exceed `max_width`, paired with that accumulated width (so a width-2
character that would exceed the limit is excluded whole, never split), and
for `max_width ≤ 0` it returns the empty prefix with width 0. -/
theorem C7_truncation_longest_fit (text : List Char) (maxW : Int)
    (ranges : List (Nat × Nat)) :
    limit_width_wch text maxW ranges =
      (text.take (spec_longest_fit text maxW ranges),
        len_wch (text.take (spec_longest_fit text maxW ranges)) ranges) ∧
    (maxW ≤ 0 → limit_width_wch text maxW ranges = ([], 0)) := by
  refine ⟨limit_eq_spec ranges text maxW, ?_⟩
  intro hle
  have hzero : spec_longest_fit text maxW ranges = 0 := by
    simp only [spec_longest_fit]
    rw [Nat.findGreatest_eq_zero_iff]
    intro n hn hnle hP
    have h1 := len_wch_ge_length ranges (text.take n)
    rw [List.length_take, Nat.min_eq_left hnle] at h1
    omega
  rw [limit_eq_spec ranges text maxW, hzero]
  rfl

/-- C7 (witness): a probe of the `max_width ≤ 0` edge case at a concrete
input. -/
theorem C7_truncation_longest_fit_witness :
    limit_width_wch ['a', 'b'] (-1) [] = ([], 0) :=
  (C7_truncation_longest_fit ['a', 'b'] (-1) []).2 (by norm_num)

/-- C8: for every palette containing the probe triple exactly (all
components in the 0–255 RGB range, so the `int32_t` arithmetic of the code
cannot overflow), `closest_color` returns the lowest index at which the
triple occurs, together with that entry — a distance-0 match found by the
strict `<` comparison, which leaves the earliest minimum in place. -/
theorem C8_exact_match_lowest_index (colors : List (Nat × Nat × Nat))
    (rgb : Nat × Nat × Nat) (hmem : rgb ∈ colors)
    (hrgb : rgb.1 ≤ 255 ∧ rgb.2.1 ≤ 255 ∧ rgb.2.2 ≤ 255)
    (hcol : ∀ c ∈ colors, c.1 ≤ 255 ∧ c.2.1 ≤ 255 ∧ c.2.2 ≤ 255) :
    closest_color colors rgb = (lowestIdx colors rgb, rgb) := by
  simp only [closest_color]
  rw [closestGo_found rgb colors 0 0 2147483647 (by norm_num) hmem]
  simp only [zero_add]
  rw [lowestIdx_getD rgb colors hmem]

/-- C8 (witness): a palette in which the probe occurs twice; the scan
returns the lower of the two indices (1, not 2) with the entry itself. -/
theorem C8_exact_match_lowest_index_witness :
    closest_color [(10, 20, 30), (1, 2, 3), (1, 2, 3)] (1, 2, 3) =
      (lowestIdx [(10, 20, 30), (1, 2, 3), (1, 2, 3)] (1, 2, 3), (1, 2, 3)) ∧
    lowestIdx [(10, 20, 30), (1, 2, 3), (1, 2, 3)] (1, 2, 3) = 1 :=
  ⟨C8_exact_match_lowest_index [(10, 20, 30), (1, 2, 3), (1, 2, 3)] (1, 2, 3)
    (by decide) (by decide) (by decide), by decide⟩

/-- C9: a query that splits into zero whitespace-separated words — one
consisting entirely of whitespace, the empty query included — makes
`fuzzy_match_score` return 0 for every candidate, so it excludes every
candidate rather than matching all of them. -/
theorem C9_whitespace_query_scores_zero (query candidate : List Char)
    (h : ∀ ch ∈ query, isPySpace ch = true) :
    fuzzy_match_score query candidate = 0 := by
  have hsplit : splitWs query = [] := by
    unfold splitWs
    induction query with
    | nil => rfl
    | cons c rest ih =>
      have hc : isPySpace c = true := h c (List.mem_cons_self c rest)
      simp only [splitWsAux, hc, if_true, if_pos rfl]
      exact ih (fun ch hm => h ch (List.mem_cons_of_mem c hm))
  unfold fuzzy_match_score
  rw [hsplit]
  rfl

/-- C9 (witness): the single-space query scores 0 against candidate
`"ab"`. -/
theorem C9_whitespace_query_scores_zero_witness :
    fuzzy_match_score [' '] ['a', 'b'] = 0 :=
  C9_whitespace_query_scores_zero [' '] ['a', 'b'] (by decide)

/-- C10 (counterexample): the claim fails when the emoji at column `i` is
itself skipped by an earlier emoji's two-column advance.  With row
`[emoji, emoji, 'a']` versus `[emoji, emoji, 'b']` — identical except at
column 2 = i + 1 for i = 1, whose column-1 cell holds an emoji — the scan
at position 0 jumps to position 2 and renders the differing cell, so the
draw operations differ. -/
theorem C10_counterexample :
    is_emoji ((([(Char.ofNat 0x1F600, 0), (Char.ofNat 0x1F600, 0), ('a', 0)] :
      List Cell).getD 1 (' ', 0)).1) = true ∧
    (∀ j, j < 3 → j ≠ 2 →
      ([(Char.ofNat 0x1F600, 0), (Char.ofNat 0x1F600, 0), ('a', 0)] :
        List Cell).getD j (' ', 0) =
      ([(Char.ofNat 0x1F600, 0), (Char.ofNat 0x1F600, 0), ('b', 0)] :
        List Cell).getD j (' ', 0)) ∧
    renderRowOps [(Char.ofNat 0x1F600, 0), (Char.ofNat 0x1F600, 0), ('a', 0)]
        3 0 1 1 0 0 (fun _ => (1, 0)) ≠
      renderRowOps [(Char.ofNat 0x1F600, 0), (Char.ofNat 0x1F600, 0), ('b', 0)]
        3 0 1 1 0 0 (fun _ => (1, 0)) := by
  refine ⟨by decide, by decide, by decide⟩

/-- C10 (amended): the draw operations `render` issues for a dirty row do
not depend on the buffer cell immediately following an emoji cell that the
scan actually visits: if column `i` holds an emoji and no earlier column of
the row holds one (so the scan reaches position `i` rather than jumping
over it), then changing the cell at column `i + 1` arbitrarily leaves the
emitted draw-operation sequence unchanged — the scan advances two buffer
columns for that one double-width glyph and never paints the skipped
cell. -/
theorem C10_emoji_skips_next_cell (r1 : List Cell) (i : Nat) (c : Cell) (ncols : Nat)
    (y cw chh pxx pxy : Int) (cm : Nat → Nat × Nat)
    (hemoji : is_emoji ((r1.getD i (' ', 0)).1) = true)
    (hbefore : ∀ m, m < i → is_emoji ((r1.getD m (' ', 0)).1) = false) :
    renderRowOps r1 ncols y cw chh pxx pxy cm =
      renderRowOps (r1.set (i + 1) c) ncols y cw chh pxx pxy cm :=
  renderScan_agree r1 i c ncols y cw chh pxx pxy cm hemoji ncols 0 0
    (Or.inl ⟨Nat.zero_le i, fun m _ hm => hbefore m hm⟩)

/-- C10 (witness): with the emoji at column 0 (visited by the scan),
replacing the skipped cell at column 1 leaves the draw operations
unchanged. -/
theorem C10_emoji_skips_next_cell_witness :
    renderRowOps [(Char.ofNat 0x1F600, 0), ('a', 0), ('b', 0)] 3 0 1 1 0 0
        (fun _ => (1, 0)) =
      renderRowOps (([(Char.ofNat 0x1F600, 0), ('a', 0), ('b', 0)] :
          List Cell).set 1 ('z', 5)) 3 0 1 1 0 0 (fun _ => (1, 0)) :=
  C10_emoji_skips_next_cell [(Char.ofNat 0x1F600, 0), ('a', 0), ('b', 0)] 0 ('z', 5)
    3 0 1 1 0 0 (fun _ => (1, 0)) (by decide) (by decide)

end Endcord
